import Mathlib

/-!
# Verification of the chemical-balancer core

A shallow embedding, in Lean 4, of the equation-balancing core of the
`chemical-balancer` TypeScript library: the formula parser
(`src/parser.ts`, class `Parser`), the stoichiometric solver
(`src/solver.ts`, class `MathSolver`, which uses `fraction.js` exact
rationals), and the orchestrator (`src/balancer.ts`, class
`ChemicalBalancer`).

Modelling conventions:
* JavaScript numbers are modelled as exact integers/rationals.  Every
  arithmetic operation the embedded code paths perform on the inputs
  appearing in the theorems below is exact in IEEE doubles at the
  magnitudes involved, so the model agrees with the JS semantics there.
* `fraction.js` rationals (always kept in reduced form, positive
  denominator, sign carried by the numerator here) are modelled by the
  structure `Frac` below, with a fuel-based gcd so that everything
  reduces inside the kernel.
* JavaScript objects used as string-keyed records are modelled as
  association lists with insertion-order semantics (`Obj` below):
  assigning to an existing key updates it in place, assigning to a new
  key appends it.
* The i18n layer (`t` from `src/i18n.ts`) is modelled at its default
  locale `'en'`, with parameter interpolation applied directly.
* The whitespace class of the JS regexes (`\s`) is modelled by the six
  ASCII whitespace characters; the exotic Unicode space characters JS
  additionally accepts do not occur in any input considered here.
-/

deriving instance DecidableEq for Except

namespace ChemBal

/-! ## JS-object association lists -/

/-- A JavaScript object used as a `Record<string, α>`: an association
list with insertion-order semantics. -/
abbrev Obj (α : Type) := List (String × α)

/-- Assignment `m[k] = v`: update in place if the key exists, append
otherwise (JS object key-order semantics). -/
def oset {α : Type} : Obj α → String → α → Obj α
  | [], k, v => [(k, v)]
  | (k', v') :: rest, k, v =>
    if k' = k then (k, v) :: rest else (k', v') :: oset rest k v

/-- Key lookup `m[k]` (as an `Option`). -/
def olookup {α : Type} : Obj α → String → Option α
  | [], _ => none
  | (k', v') :: rest, k => if k' = k then some v' else olookup rest k

/-- `m[k] || 0` as used on count records. -/
def oget (m : Obj Int) (k : String) : Int := (olookup m k).getD 0

/-- `Object.keys(m)`. -/
def okeys {α : Type} (m : Obj α) : List String := m.map (·.1)

/-- A sequence of assignments `m[k] = v`, performed left to right. -/
def storeAll {α : Type} (init : Obj α) (pairs : List (String × α)) : Obj α :=
  pairs.foldl (fun acc p => oset acc p.1 p.2) init

/-! ## Fueled gcd / lcm (the `MathSolver.gcd` / `MathSolver.lcm` helpers) -/

/-- Fueled Euclidean loop; the fuel is an upper bound on the second
argument, which strictly decreases. -/
def gcdGo : Nat → Nat → Nat → Nat
  | 0, a, _ => a
  | fuel + 1, a, b => if b = 0 then a else gcdGo fuel b (a % b)

/-- `MathSolver.gcd`: `if (!b) return a; return gcd(b, a % b)`. -/
def jsGcd (a b : Nat) : Nat := gcdGo (b + 1) a b

/-- `MathSolver.lcm`: `if (a === 0 || b === 0) return 0; return a*b/gcd(a,b)`. -/
def jsLcm (a b : Nat) : Nat :=
  if a = 0 ∨ b = 0 then 0 else a * b / jsGcd a b

theorem gcdGo_eq_gcd : ∀ (fuel a b : Nat), b < fuel → gcdGo fuel a b = Nat.gcd a b := by
  intro fuel
  induction fuel with
  | zero => intro a b h; omega
  | succ f ih =>
    intro a b h
    simp only [gcdGo]
    by_cases hb : b = 0
    · simp [hb]
    · simp only [hb, if_false]
      rw [ih b (a % b) (by have := Nat.mod_lt a (Nat.pos_of_ne_zero hb); omega)]
      rw [Nat.gcd_comm b (a % b), ← Nat.gcd_rec, Nat.gcd_comm]

theorem jsGcd_eq_gcd (a b : Nat) : jsGcd a b = Nat.gcd a b :=
  gcdGo_eq_gcd _ a b (Nat.lt_succ_self b)

/-! ## Exact rationals (`fraction.js` values)

`fraction.js` keeps every value reduced, with a separate sign flag, a
non-negative numerator magnitude and a positive denominator.  `Frac`
stores the signed numerator and the denominator; `num.natAbs` is the
`n` field, `den` is `d`, and the sign test `s >= 0` is `0 ≤ num`. -/

structure Frac where
  num : Int
  den : Nat
deriving DecidableEq, Repr

/-- Build a reduced fraction from a signed numerator and a non-negative
denominator (denominator `0` never arises on the executed paths). -/
def Frac.mk' (n : Int) (d : Nat) : Frac :=
  if d = 0 then ⟨0, 0⟩
  else
    let g := jsGcd n.natAbs d
    ⟨n / (g : Int), d / g⟩

def Frac.ofInt (n : Int) : Frac := ⟨n, 1⟩

def Frac.ofNat (n : Nat) : Frac := ⟨(n : Int), 1⟩

def Frac.add (x y : Frac) : Frac :=
  Frac.mk' (x.num * (y.den : Int) + y.num * (x.den : Int)) (x.den * y.den)

def Frac.neg (x : Frac) : Frac := ⟨-x.num, x.den⟩

def Frac.sub (x y : Frac) : Frac := x.add y.neg

def Frac.mul (x y : Frac) : Frac := Frac.mk' (x.num * y.num) (x.den * y.den)

/-- Build a reduced fraction from a signed numerator and a signed
denominator (used by division, where the divisor's numerator carries a
sign). -/
def Frac.mkSigned (n d : Int) : Frac :=
  if d < 0 then Frac.mk' (-n) (-d).toNat else Frac.mk' n d.toNat

def Frac.div (x y : Frac) : Frac :=
  Frac.mkSigned (x.num * (y.den : Int)) ((x.den : Int) * y.num)

/-- `fraction.js` `equals(0)`. -/
def Frac.isZero (x : Frac) : Bool := x.num = 0

/-- `v.s >= 0` (the value is non-negative; for `0` the stored sign is `1`). -/
def Frac.nonNeg (x : Frac) : Bool := 0 ≤ x.num

/-! ## Character classes and small string utilities -/

/-- The JS regex class `[A-Z]`. -/
def isUpper (c : Char) : Bool := 65 ≤ c.toNat && c.toNat ≤ 90

/-- The JS regex class `[a-z]`. -/
def isLower (c : Char) : Bool := 97 ≤ c.toNat && c.toNat ≤ 122

/-- The JS regex class `[0-9]` (`\d`). -/
def isDigit (c : Char) : Bool := 48 ≤ c.toNat && c.toNat ≤ 57

/-- The JS regex class `\s` (restricted to ASCII whitespace; see the
module comment). -/
def isWs (c : Char) : Bool :=
  c.toNat = 32 || c.toNat = 9 || c.toNat = 10 || c.toNat = 13 ||
  c.toNat = 11 || c.toNat = 12

/-- `parseInt(digits, 10)` on a non-empty digit string. -/
def natOfDigits (cs : List Char) : Nat :=
  cs.foldl (fun a c => 10 * a + (c.toNat - 48)) 0

/-- `String.prototype.trim()`. -/
def trimChars (cs : List Char) : List Char :=
  ((cs.dropWhile isWs).reverse.dropWhile isWs).reverse

/-- UTF-16 code-unit comparison used by the default `Array.sort`
comparator on strings (all characters involved are in the BMP, so
code-point order coincides). -/
def ltChars : List Char → List Char → Bool
  | [], [] => false
  | [], _ :: _ => true
  | _ :: _, [] => false
  | a :: as, b :: bs =>
    if a.toNat < b.toNat then true
    else if b.toNat < a.toNat then false
    else ltChars as bs

def strLt (a b : String) : Bool := ltChars a.data b.data

/-- Insert into a `<`-ascending list of strings. -/
def insertSorted (x : String) : List String → List String
  | [] => [x]
  | y :: ys => if strLt x y then x :: y :: ys else y :: insertSorted x ys

/-- `Array.prototype.sort()` on distinct strings. -/
def sortStrings (l : List String) : List String := l.foldr insertSorted []

/-- `Array.from(new Set(list))`: deduplicate keeping first occurrences
in insertion order. -/
def setList (l : List String) : List String :=
  (l.foldl (fun acc x => if x ∈ acc then acc else acc ++ [x]) [])

/-- Join pieces with a separator: the left inverse of splitting. -/
def joinWithSep (sepL : List Char) : List (List Char) → List Char
  | [] => []
  | [a] => a
  | a :: rest => a ++ sepL ++ joinWithSep sepL rest

/-- `String.prototype.split(sep)` for a single-character separator. -/
def splitOnChar (sep : Char) : List Char → List (List Char)
  | [] => [[]]
  | c :: rest =>
    let r := splitOnChar sep rest
    if c = sep then [] :: r
    else (c :: r.headD []) :: r.tail

/-! ## The periodic table (`src/periodic-table.ts`) -/

/-- `VALID_ELEMENTS`: the 118 element symbols plus deuterium `D`. -/
def VALID_ELEMENTS : List String :=
  ["H", "He",
   "Li", "Be", "B", "C", "N", "O", "F", "Ne",
   "Na", "Mg", "Al", "Si", "P", "S", "Cl", "Ar",
   "K", "Ca", "Sc", "Ti", "V", "Cr", "Mn", "Fe", "Co", "Ni", "Cu", "Zn",
   "Ga", "Ge", "As", "Se", "Br", "Kr",
   "Rb", "Sr", "Y", "Zr", "Nb", "Mo", "Tc", "Ru", "Rh", "Pd", "Ag", "Cd",
   "In", "Sn", "Sb", "Te", "I", "Xe",
   "Cs", "Ba",
   "La", "Ce", "Pr", "Nd", "Pm", "Sm", "Eu", "Gd", "Tb", "Dy", "Ho",
   "Er", "Tm", "Yb", "Lu",
   "Hf", "Ta", "W", "Re", "Os", "Ir", "Pt", "Au", "Hg", "Tl", "Pb",
   "Bi", "Po", "At", "Rn",
   "Fr", "Ra",
   "Ac", "Th", "Pa", "U", "Np", "Pu", "Am", "Cm", "Bk", "Cf", "Es",
   "Fm", "Md", "No", "Lr",
   "Rf", "Db", "Sg", "Bh", "Hs", "Mt", "Ds", "Rg", "Cn", "Nh", "Fl",
   "Mc", "Lv", "Ts", "Og",
   "D"]

/-- `isValidElement` from `src/periodic-table.ts`. -/
def isValidElement (symbol : String) : Bool := VALID_ELEMENTS.contains symbol

/-! ## Error messages (`src/i18n.ts`, default locale `en`)

The message templates are reproduced with their interpolation applied
directly; the decorative quote characters around interpolated values
are omitted (no claim concerns the exact message text). -/

def msgEmptyEquation : String := "Empty equation"
def msgMissingSeparator : String := "Invalid equation syntax: missing separator (->, =>, =)"
def msgMultipleSeparators : String := "Invalid equation syntax: multiple separators found"
def msgMissingReactantsOrProducts : String := "Missing reactants or products"
def msgElementMissingInProducts (element : String) : String :=
  "Element " ++ element ++ " is present in reactants but missing in products"
def msgElementMissingInReactants (element : String) : String :=
  "Element " ++ element ++ " is present in products but missing in reactants"
def msgInvalidFormulaSyntax (formula : List Char) : String :=
  "Invalid formula syntax (unbalanced or malformed parentheses): " ++ String.mk formula
def msgInvalidCharacters (formula chars : List Char) : String :=
  "Invalid characters in formula " ++ String.mk formula ++ ": " ++ String.mk chars
def msgInvalidCharactersEnd (formula chars : List Char) : String :=
  "Invalid characters at end of formula " ++ String.mk formula ++ ": " ++ String.mk chars
def msgUnknownElement (element : String) (formula : List Char) : String :=
  "Unknown element " ++ element ++ " in formula " ++ String.mk formula

/-! ## The formula parser (`src/parser.ts`) -/

namespace Parser

/-- Scanning loop of `parseSimpleFormula`: repeated `exec` of the global
regex `([A-Z][a-z]?)(\d*)` with the gap / unknown-element checks of the
source.  `formula` is the full string (used in error messages), the
fuel is an upper bound on the number of iterations (each iteration
consumes at least the matched uppercase letter, so `length + 1`
suffices and the out-of-fuel branch is unreachable). -/
def simpleGo (formula : List Char) (checkValidity : Bool) :
    Nat → List Char → Obj Int → Except String (Obj Int)
  | 0, _, counts => .ok counts
  | fuel + 1, cs, counts =>
    let gap := cs.takeWhile (fun c => !isUpper c)
    let rest := cs.dropWhile (fun c => !isUpper c)
    match rest with
    | [] =>
      if checkValidity && !gap.isEmpty then
        .error (msgInvalidCharactersEnd formula gap)
      else .ok counts
    | u :: rest1 =>
      if checkValidity && !gap.isEmpty then
        .error (msgInvalidCharacters formula gap)
      else
        let elemRest :=
          match rest1 with
          | c :: t => if isLower c then ([u, c], t) else ([u], rest1)
          | [] => ([u], ([] : List Char))
        let element := String.mk elemRest.1
        let digs := elemRest.2.takeWhile isDigit
        let rest3 := elemRest.2.dropWhile isDigit
        let count : Int := if digs.isEmpty then 1 else (natOfDigits digs : Int)
        if checkValidity && !isValidElement element then
          .error (msgUnknownElement element formula)
        else
          simpleGo formula checkValidity fuel rest3
            (oset counts element (oget counts element + count))

/-- `parseSimpleFormula(formula, checkValidity)`. -/
def parseSimpleFormula (formula : List Char) (checkValidity : Bool) :
    Except String (Obj Int) :=
  simpleGo formula checkValidity (formula.length + 1) formula []

def isParen (c : Char) : Bool := c = '(' || c = ')'

/-- Leftmost match of the group regex `\(([^()]+)\)(\d*)`: returns the
text before the match, the group content, the multiplier digits and the
text after the match. -/
def findGroup : List Char → Option (List Char × List Char × List Char × List Char)
  | [] => none
  | c :: rest =>
    if c = '(' then
      let content := rest.takeWhile (fun d => !isParen d)
      let after := rest.dropWhile (fun d => !isParen d)
      match after with
      | ')' :: after2 =>
        if content.isEmpty then
          match findGroup rest with
          | some (pre, c2, d2, r2) => some (c :: pre, c2, d2, r2)
          | none => none
        else
          let digs := after2.takeWhile isDigit
          let after3 := after2.dropWhile isDigit
          some ([], content, digs, after3)
      | _ =>
        match findGroup rest with
        | some (pre, c2, d2, r2) => some (c :: pre, c2, d2, r2)
        | none => none
    else
      match findGroup rest with
      | some (pre, c2, d2, r2) => some (c :: pre, c2, d2, r2)
      | none => none

/-- The replacement callback of the parenthesis regex: parse the group
content leniently and expand it textually, multiplying each count by
the group multiplier (the reserved charge key is skipped, as in the
source). -/
def expandGroup (content digs : List Char) : Except String (List Char) := do
  let multiplier : Int := if digs.isEmpty then 1 else (natOfDigits digs : Int)
  let innerCounts ← parseSimpleFormula content false
  pure (innerCounts.foldl (fun acc (p : String × Int) =>
    if p.1 = "_Q" then acc
    else acc ++ p.1.data ++ (p.2 * multiplier).repr.data) [])

/-- One `String.prototype.replace` pass with the global group regex:
replaces every non-overlapping match left to right; the returned flag
records whether any match was found.  Fuel: each match consumes at
least three characters of the remaining text. -/
def replaceAllGroups : Nat → List Char → Except String (List Char × Bool)
  | 0, cs => .ok (cs, false)
  | fuel + 1, cs =>
    match findGroup cs with
    | none => .ok (cs, false)
    | some (pre, content, digs, rest) => do
      let exp ← expandGroup content digs
      let restR ← replaceAllGroups fuel rest
      .ok (pre ++ exp ++ restR.1, true)

/-- The `while (processedFormula.includes('('))` expansion loop of
`parseStandardFormula`.  Each successful pass strictly decreases the
number of `(` characters, so fuel `length + 1` makes the out-of-fuel
branch unreachable. -/
def parensLoop (formula : List Char) : Nat → List Char → Except String (List Char)
  | 0, _ => .error (msgInvalidFormulaSyntax formula)
  | fuel + 1, cs =>
    if cs.contains '(' then do
      let r ← replaceAllGroups (cs.length + 1) cs
      if !r.2 && r.1.contains '(' then .error (msgInvalidFormulaSyntax formula)
      else parensLoop formula fuel r.1
    else .ok cs

/-- Trailing ionic-charge extraction of `parseStandardFormula`: the
caret pattern `\^(\d*)([+-])$` is tried first, then the bare pattern
`([+-])$`; returns the signed charge (0 when neither matches) and the
remaining text. -/
def extractCharge (cs : List Char) : Int × List Char :=
  match cs.reverse with
  | [] => (0, cs)
  | sign :: rest =>
    if sign = '+' || sign = '-' then
      let digsRev := rest.takeWhile isDigit
      let afterDigs := rest.dropWhile isDigit
      match afterDigs with
      | '^' :: before =>
        let magnitude : Nat := if digsRev.isEmpty then 1 else natOfDigits digsRev.reverse
        let charge : Int := if sign = '+' then (magnitude : Int) else -(magnitude : Int)
        (charge, before.reverse)
      | _ =>
        (if sign = '+' then (1 : Int) else -1, rest.reverse)
    else (0, cs)

/-- `parseStandardFormula` (no hydrate dots): strip a leading integer
coefficient, short-circuit the electron tokens, extract a trailing
charge, expand parentheses and parse the flat remainder strictly,
merging atom counts into the charge record. -/
def parseStandardFormula (formula : List Char) : Except String (Obj Int) :=
  let cleanFormula := formula.dropWhile isDigit
  if cleanFormula = ['e'] || cleanFormula = ['e', '-'] || cleanFormula = ['e', '^', '-'] then
    .ok [("_Q", -1)]
  else
    let chargeRem := extractCharge cleanFormula
    let charge := chargeRem.1
    let remaining := chargeRem.2
    let counts : Obj Int := if charge ≠ 0 then [("_Q", charge)] else []
    if remaining.isEmpty then .ok counts
    else do
      let processed ← parensLoop formula (remaining.length + 1) remaining
      let finalCounts ← parseSimpleFormula processed true
      .ok (finalCounts.foldl (fun acc (p : String × Int) =>
        oset acc p.1 (oget acc p.1 + p.2)) counts)

/-- The result record of `parseFormulaWithState`. -/
structure ParsedFormula where
  elements : Obj Int
  state : Option String
deriving DecidableEq, Repr

/-- Trailing state-annotation match `\((s|l|g|aq)\)$`. -/
def stateStrip (cs : List Char) : Option String × List Char :=
  if ['(', 's', ')'].isSuffixOf cs then (some "s", cs.take (cs.length - 3))
  else if ['(', 'l', ')'].isSuffixOf cs then (some "l", cs.take (cs.length - 3))
  else if ['(', 'g', ')'].isSuffixOf cs then (some "g", cs.take (cs.length - 3))
  else if ['(', 'a', 'q', ')'].isSuffixOf cs then (some "aq", cs.take (cs.length - 4))
  else (none, cs)

/-- Hydrate-part decomposition: for parts after the first, a leading
integer (regex `^(\d+)(.+)`) is the multiplier (default 1). -/
def hydratePart (index : Nat) (part : List Char) : Nat × List Char :=
  if index = 0 then (1, part)
  else
    let digs := part.takeWhile isDigit
    let rest := part.dropWhile isDigit
    if digs.isEmpty || rest.isEmpty then (1, part)
    else (natOfDigits digs, rest)

/-- The `parts.forEach` accumulation over hydrate parts. -/
def hydrateGo : Nat → List (List Char) → Obj Int → Except String (Obj Int)
  | _, [], total => .ok total
  | index, part :: rest, total => do
    let mp := hydratePart index part
    let counts ← parseStandardFormula mp.2
    let total' := counts.foldl (fun acc (p : String × Int) =>
      oset acc p.1 (oget acc p.1 + p.2 * (mp.1 : Int))) total
    hydrateGo (index + 1) rest total'

/-- `parseFormulaWithState`: whitespace removal, state-annotation
stripping, hydrate splitting, then standard parsing. -/
def parseFormulaWithState (formula : String) : Except String ParsedFormula := do
  let cleanFormula0 := formula.data.filter (fun c => !isWs c)
  let ss := stateStrip cleanFormula0
  let state := ss.1
  let cleanFormula := ss.2
  if cleanFormula.contains '.' then do
    let total ← hydrateGo 0 (splitOnChar '.' cleanFormula) []
    .ok ⟨total, state⟩
  else do
    let elements ← parseStandardFormula cleanFormula
    .ok ⟨elements, state⟩

/-- `parseFormula`: element counts only. -/
def parseFormula (formula : String) : Except String (Obj Int) :=
  (parseFormulaWithState formula).map (·.elements)

end Parser

/-! ## The stoichiometric solver (`src/solver.ts`, class `MathSolver`) -/

def frac0 : Frac := ⟨0, 1⟩
def frac1 : Frac := ⟨1, 1⟩

namespace MathSolver

abbrev Mat := List (List Frac)

/-- `matrix[i][j]` (in-bounds on all executed paths). -/
def mget (m : Mat) (i j : Nat) : Frac := (m.getD i []).getD j frac0

/-- The inner `while (matrix[i][lead].equals(0))` search of `toRREF`:
first row index in `[i, numRows)` whose entry in column `lead` is
non-zero. -/
def pivotSearchGo (m : Mat) (lead : Nat) : Nat → Nat → Option Nat
  | 0, _ => none
  | fuel + 1, i =>
    if (mget m i lead).isZero then pivotSearchGo m lead fuel (i + 1) else some i

def pivotSearch (m : Mat) (numRows lead r : Nat) : Option Nat :=
  pivotSearchGo m lead (numRows - r) r

/-- `[matrix[i], matrix[r]] = [matrix[r], matrix[i]]`. -/
def swapRows (m : Mat) (i r : Nat) : Mat :=
  let ri := m.getD i []
  let rr := m.getD r []
  (m.set i rr).set r ri

/-- Divide row `r` by the pivot value to make the pivot 1. -/
def divRow (m : Mat) (r : Nat) (pv : Frac) : Mat :=
  m.set r ((m.getD r []).map (fun x => x.div pv))

/-- Eliminate column `lead` from every row other than `r`. -/
def eliminate (m : Mat) (r lead : Nat) : Mat :=
  m.enum.map (fun p =>
    if p.1 = r then p.2
    else
      let v := p.2.getD lead frac0
      p.2.enum.map (fun q => q.2.sub (v.mul ((m.getD r []).getD q.1 frac0))))

/-- The row loop of `toRREF`.  `lead` strictly increases on every
iteration and the loop exits once `numCols <= lead`, so fuel
`numCols + 1` makes the out-of-fuel branch unreachable. -/
def rrefGo (numRows numCols : Nat) : Nat → Mat → Nat → Nat → Mat
  | 0, m, _, _ => m
  | fuel + 1, m, r, lead =>
    if numRows ≤ r then m
    else if numCols ≤ lead then m
    else
      match pivotSearch m numRows lead r with
      | none => rrefGo numRows numCols fuel m r (lead + 1)
      | some i =>
        let m1 := swapRows m i r
        let pv := mget m1 r lead
        let m2 := divRow m1 r pv
        let m3 := eliminate m2 r lead
        rrefGo numRows numCols fuel m3 (r + 1) (lead + 1)

/-- `toRREF` (Gauss–Jordan to reduced row echelon form). -/
def toRREF (numRows numCols : Nat) (m : Mat) : Mat :=
  rrefGo numRows numCols (numCols + 1) m 0 0

/-- Pivot / free column classification: scan the columns left to right,
advancing a row counter at every column whose entry in the current row
is non-zero.  Returns `(pivotCols, freeCols)`. -/
def classifyCols (m : Mat) (numRows numCols : Nat) : List Nat × List Nat :=
  let res := (List.range numCols).foldl
    (fun (acc : List Nat × List Nat × Nat) c =>
      let r := acc.2.2
      if r < numRows && !(mget m r c).isZero then (acc.1 ++ [c], acc.2.1, r + 1)
      else (acc.1, acc.2.1 ++ [c], r))
    ([], [], 0)
  (res.1, res.2.1)

/-- `sum` accumulation of the back-substitution:
`Σ_{j=start}^{numCols-1} matrix[row][j] * solution[j]`. -/
def rowSumFrom (m : Mat) (row start numCols : Nat) (sol : List Frac) : Frac :=
  ((List.range numCols).drop start).foldl
    (fun s j => s.add ((mget m row j).mul (sol.getD j frac0))) frac0

/-- Back-substitution through the pivot rows in reverse pivot order. -/
def backSubst (m : Mat) (numCols : Nat) (pivotCols : List Nat) (sol0 : List Frac) :
    List Frac :=
  (pivotCols.enum.reverse).foldl
    (fun sol p =>
      let sum := rowSumFrom m p.1 (p.2 + 1) numCols sol
      sol.set p.2 sum.neg) sol0

/-- Null-space basis vector for one free column: set that free variable
to 1, all others to 0, and back-substitute. -/
def basisFor (m : Mat) (numCols : Nat) (pivotCols : List Nat) (freeCol : Nat) :
    List Frac :=
  backSubst m numCols pivotCols ((List.replicate numCols frac0).set freeCol frac1)

def zeroCount (v : List Frac) : Nat := (v.filter (fun q => q.isZero)).length

/-- `currentVec.every(v => v.s >= 0)`. -/
def isNonNegativeVec (v : List Frac) : Bool := v.all Frac.nonNeg

/-- `bestVector.every(v => v.n > 0)`. -/
def allPositive (v : List Frac) : Bool := v.all (fun q => 0 < q.num.natAbs)

/-- Leaf of `searchWeights`: keep the non-negative candidate with the
fewest zero entries. -/
def leafUpdate (best : Option (List Frac)) (cur : List Frac) : Option (List Frac) :=
  if isNonNegativeVec cur then
    match best with
    | none => some cur
    | some b => if zeroCount cur < zeroCount b then some cur else some b
  else best

/-- The early-exit test of `searchWeights`. -/
def stopCond : Option (List Frac) → Bool
  | some b => allPositive b
  | none => false

def addVec (a b : List Frac) : List Frac := a.zipWith Frac.add b

def scaleVec (w : Nat) (v : List Frac) : List Frac :=
  v.map (fun x => x.mul (Frac.ofNat w))

/-- `searchWeights`: try weights 1..6 (`MAX_WEIGHT_SEARCH`) for each
basis vector in turn; once the best candidate has every entry strictly
positive, all remaining iterations at every level are abandoned. -/
def searchGo : List (List Frac) → Option (List Frac) → List Frac → Option (List Frac)
  | [], best, cur => leafUpdate best cur
  | b :: bs, best, cur =>
    (([1, 2, 3, 4, 5, 6] : List Nat).foldl
      (fun (st : Option (List Frac) × Bool) w =>
        if st.2 then st
        else
          let best2 := searchGo bs st.1 (addVec cur (scaleVec w b))
          (best2, stopCond best2))
      (best, false)).1

/-- The tail of `MathSolver.normalize`: compute the collective gcd
(`commonGCD`, folded from the first entry) and divide through by it
unless it is zero. -/
def reduceByGcd (finalRes : List Nat) : List Nat :=
  match finalRes with
  | [] => []
  | f :: rest =>
    let commonGCD := rest.foldl jsGcd f
    if commonGCD = 0 then finalRes else finalRes.map (· / commonGCD)

/-- `MathSolver.normalize`: clear denominators with the lcm, take
absolute values, then divide by the collective gcd. -/
def normalize (vector : List Frac) : List Nat :=
  let lcmDenom := vector.foldl (fun acc v => jsLcm acc v.den) 1
  let integers : List Int := vector.map (fun v => v.num * ((lcmDenom / v.den : Nat) : Int))
  reduceByGcd (integers.map Int.natAbs)

/-- `MathSolver.solve`.  In the source, an empty element set makes
`toRREF` dereference `matrix[0]` of an empty matrix, raising a
`TypeError` that the orchestrator catches; this is modelled by the
explicit error branch. -/
def solve (reactants products : List (Obj Int)) : Except String (List Nat) :=
  let allMolecules := reactants ++ products
  let uniqueElements := sortStrings (setList (allMolecules.flatMap okeys))
  let numRows := uniqueElements.length
  let numCols := allMolecules.length
  let matrix : Mat := uniqueElements.map (fun element =>
    allMolecules.enum.map (fun p =>
      let count := oget p.2 element
      if p.1 < reactants.length then Frac.ofInt count else Frac.ofInt (-count)))
  if numRows = 0 then
    .error "Cannot read properties of undefined (reading length)"
  else
    let rref := toRREF numRows numCols matrix
    let cls := classifyCols rref numRows numCols
    let basisVectors := cls.2.map (basisFor rref numCols cls.1)
    match basisVectors with
    | [] => .ok (List.replicate numCols 0)
    | [v] => .ok (normalize v)
    | _ =>
      match searchGo basisVectors none (List.replicate numCols frac0) with
      | some best => .ok (normalize best)
      | none =>
        let fallback := basisVectors.foldl addVec (List.replicate numCols frac0)
        .ok (normalize fallback)

end MathSolver

/-! ## The orchestrator (`src/balancer.ts`, class `ChemicalBalancer`) -/

namespace ChemicalBalancer

/-- Match of the separator regex `->|=>|=|→|⇌` at one position: the
alternatives are tried in order. -/
def sepAt (cs : List Char) : Option String :=
  if ['-', '>'].isPrefixOf cs then some "->"
  else if ['=', '>'].isPrefixOf cs then some "=>"
  else if ['='].isPrefixOf cs then some "="
  else if ['→'].isPrefixOf cs then some "→"
  else if ['⇌'].isPrefixOf cs then some "⇌"
  else none

/-- Leftmost match of the separator regex: scan position by position. -/
def findSep : List Char → Option String
  | [] => none
  | c :: rest =>
    match sepAt (c :: rest) with
    | some s => some s
    | none => findSep rest

/-- `String.prototype.split(sep)` for a non-empty literal separator
string: split at every non-overlapping occurrence, left to right.
Fuel: every step consumes at least one character. -/
def splitOnGo (sepL : List Char) : Nat → List Char → List Char → List (List Char)
  | 0, acc, _ => [acc]
  | fuel + 1, acc, cs =>
    if sepL.isPrefixOf cs && !sepL.isEmpty then
      acc :: splitOnGo sepL fuel [] (cs.drop sepL.length)
    else
      match cs with
      | [] => [acc]
      | c :: rest => splitOnGo sepL fuel (acc ++ [c]) rest

def splitOnStr (cs : List Char) (sep : String) : List (List Char) :=
  splitOnGo sep.data (cs.length + 1) [] cs

/-- `String.prototype.split(/\s+\+\s+/)`: a separator occurrence is a
maximal whitespace run followed by `+` followed by at least one
whitespace character.  Fuel: every step consumes at least one
character. -/
def splitPlusGo : Nat → List Char → List Char → List (List Char)
  | 0, acc, _ => [acc]
  | fuel + 1, acc, cs =>
    match cs with
    | [] => [acc]
    | c :: rest =>
      if isWs c then
        let run := cs.takeWhile isWs
        let after := cs.dropWhile isWs
        match after with
        | '+' :: r2 =>
          match r2 with
          | d :: _ =>
            if isWs d then
              acc :: splitPlusGo fuel [] (r2.dropWhile isWs)
            else splitPlusGo fuel (acc ++ run ++ ['+']) r2
          | [] => splitPlusGo fuel (acc ++ run ++ ['+']) []
        | _ => splitPlusGo fuel (acc ++ run) after
      else splitPlusGo fuel (acc ++ [c]) rest

def splitPlus (cs : List Char) : List (List Char) :=
  splitPlusGo (cs.length + 1) [] cs

/-- The user-coefficient match `^(\d+)(\.+)` of `parseSide` (regex
`/^(\d+)(.+)/` — at least one digit, then at least one character the
dot class accepts, i.e. anything but a newline; the engine backtracks
one digit when the character after the digit run is a newline or the
string ends there).  Returns the digit run and the text captured by the
second group. -/
def hintMatch (m : List Char) : Option (Nat × List Char) :=
  let digs := m.takeWhile isDigit
  let rest := m.dropWhile isDigit
  if digs.isEmpty then none
  else
    match rest with
    | c :: _ =>
      if c ≠ '\n' then some (natOfDigits digs, rest.takeWhile (fun d => d ≠ '\n'))
      else
        match digs.reverse with
        | lastD :: initRev =>
          if initRev.isEmpty then none
          else some (natOfDigits initRev.reverse, [lastD])
        | [] => none
    | [] =>
      match digs.reverse with
      | lastD :: initRev =>
        if initRev.isEmpty then none
        else some (natOfDigits initRev.reverse, [lastD])
      | [] => none

/-- Per-token processing of `parseSide`: trim, then extract an optional
leading-digit coefficient hint; yields the molecule name and the hint. -/
def tokenData (sideStr : List Char) : List (String × Option Nat) :=
  (splitPlus sideStr).map (fun tok =>
    let m := trimChars tok
    match hintMatch m with
    | some cr => (String.mk (trimChars cr.2), some cr.1)
    | none => (String.mk m, none))

/-- The `userCoefficients[name] = coeff` writes a side performs, in
token order (they happen before the empty-name filter). -/
def sideHints (toks : List (String × Option Nat)) : List (String × Nat) :=
  toks.filterMap (fun p => p.2.map (fun c => (p.1, c)))

/-- The molecule list of a side (empty names filtered out). -/
def sideMolecules (toks : List (String × Option Nat)) : List String :=
  (toks.map (·.1)).filter (· ≠ "")

/-- `molecules.map(m => Parser.parseFormula(m))` — in order, stopping
at the first raised error. -/
def parseCounts : List String → Except String (List (Obj Int))
  | [] => .ok []
  | m :: rest => do
    let c ← Parser.parseFormula m
    let cs ← parseCounts rest
    .ok (c :: cs)

/-- The element-conservation precheck: every element of the union
(charge excluded) must occur on both sides. -/
def conservationGo (rE pE : List String) : List String → Except String Unit
  | [] => .ok ()
  | el :: rest =>
    if el = "_Q" then conservationGo rE pE rest
    else if !(rE.contains el) then .error (msgElementMissingInReactants el)
    else if !(pE.contains el) then .error (msgElementMissingInProducts el)
    else conservationGo rE pE rest

/-- One `checkScaling(mol, baseCoeff)` call: state is
`(consistent, detectedScale)`. -/
def checkScalingStep (user : Obj Nat) (st : Bool × Option Frac) (mol : String)
    (baseCoeff : Nat) : Bool × Option Frac :=
  match olookup user mol with
  | none => st
  | some userVal =>
    if baseCoeff = 0 then st
    else
      let s := (Frac.ofNat userVal).div (Frac.ofNat baseCoeff)
      match st.2 with
      | none => (st.1, some s)
      | some d => if d ≠ s then (false, some d) else st

/-- `mols.forEach((m, i) => checkScaling(m, coeffs[i]))`. -/
def scalingState (user : Obj Nat) (mols : List String) (coeffs : List Nat)
    (st : Bool × Option Frac) : Bool × Option Frac :=
  (mols.zip coeffs).foldl (fun st p => checkScalingStep user st p.1 p.2) st

/-- The scaling-factor decision (`scalingFactor` starts at 1): applied
when the hints are consistent and positive; an integer scale is taken
directly, and otherwise the source's `Number.isInteger(detectedScale *
100000)` branch still adopts the fractional scale (the subsequent
`detectedScale % 1 === 0` assignment never fires for a non-integer). -/
def computeScalingFactor (st : Bool × Option Frac) : Frac :=
  match st.2 with
  | none => frac1
  | some ds =>
    if st.1 && decide (0 < ds.num) then
      if ds.den = 1 then ds
      else if (ds.mul (Frac.ofNat 100000)).den = 1 then ds
      else frac1
    else frac1

/-- Everything the success path of `balance` computes before assembling
the result object: the source's local variables. -/
structure PipelineState where
  sep : String
  rStr : List Char
  pStr : List Char
  rMols : List String
  pMols : List String
  rCounts : List (Obj Int)
  pCounts : List (Obj Int)
  userCoefficients : Obj Nat
  allElements : List String
  solveResult : List Nat
  scalingFactor : Frac
  rCoeffs : List Frac
  pCoeffs : List Frac
deriving DecidableEq, Repr

/-- The `try` block of `balance` up to (and including) the scaled
coefficient vectors; every `throw` of the source becomes an `error`. -/
def balancePipeline (equation : String) : Except String PipelineState :=
  if equation.data.all isWs then .error msgEmptyEquation
  else
    match findSep equation.data with
    | none => .error msgMissingSeparator
    | some sep =>
      let parts := splitOnStr equation.data sep
      if parts.length ≠ 2 then .error msgMultipleSeparators
      else
        let reactantsStr := parts.getD 0 []
        let productsStr := parts.getD 1 []
        let rToks := tokenData reactantsStr
        let pToks := tokenData productsStr
        let rMols := sideMolecules rToks
        let pMols := sideMolecules pToks
        do
          let rCounts ← parseCounts rMols
          let pCounts ← parseCounts pMols
          if rMols.isEmpty || pMols.isEmpty then .error msgMissingReactantsOrProducts
          else
            let userCoefficients := storeAll [] (sideHints rToks ++ sideHints pToks)
            let rElements := setList (rCounts.flatMap okeys)
            let pElements := setList (pCounts.flatMap okeys)
            let allUnion := setList (rElements ++ pElements)
            do
              let _ ← conservationGo rElements pElements allUnion
              let allElements := sortStrings allUnion
              let solveResult ← MathSolver.solve rCounts pCounts
              let rCoeffsRaw := solveResult.take rMols.length
              let pCoeffsRaw := solveResult.drop rMols.length
              let st0 := scalingState userCoefficients rMols rCoeffsRaw (true, none)
              let st1 := scalingState userCoefficients pMols pCoeffsRaw st0
              let scalingFactor := computeScalingFactor st1
              let rCoeffs := rCoeffsRaw.map (fun x => (Frac.ofNat x).mul scalingFactor)
              let pCoeffs := pCoeffsRaw.map (fun x => (Frac.ofNat x).mul scalingFactor)
              .ok ⟨sep, reactantsStr, productsStr, rMols, pMols, rCounts, pCounts,
                   userCoefficients, allElements, solveResult, scalingFactor,
                   rCoeffs, pCoeffs⟩

/-- Rendering of a JS number in the balanced string.  Integer values
render as their decimal digits, as in JS; a non-integer value is
rendered here in fraction form (JS prints a decimal expansion — no
statement below relies on the rendering of a non-integer). -/
def fracRender (q : Frac) : String :=
  if q.den = 1 then q.num.repr
  else q.num.repr ++ "/" ++ ((q.den : Int)).repr

/-- `formatSide`: each occurrence rendered with its own coefficient (a
coefficient of exactly 1 is omitted), joined by `+`. -/
def formatSide (mols : List String) (values : List Frac) : String :=
  String.intercalate " + " ((mols.zip values).map (fun p =>
    (if p.2 = frac1 then "" else fracRender p.2) ++ p.1))

/-- The `coefficients` record: written molecule by molecule, reactants
first, then products (later writes to the same name overwrite). -/
def coefficientsMap (st : PipelineState) : Obj Frac :=
  storeAll [] ((st.rMols.zip st.rCoeffs) ++ (st.pMols.zip st.pCoeffs))

/-- `debug.reactants` / `debug.products`. -/
def debugSideMap (mols : List String) (counts : List (Obj Int)) : Obj (Obj Int) :=
  storeAll [] (mols.zip counts)

/-- One side's total for one element: `Σ (c[el] || 0) * coeff`. -/
def sideTotal (counts : List (Obj Int)) (coeffs : List Frac) (el : String) : Frac :=
  (counts.zip coeffs).foldl
    (fun acc p => acc.add ((Frac.ofInt (oget p.1 el)).mul p.2)) frac0

/-- The `debug.balanceCheck` table. -/
def balanceCheckMap (st : PipelineState) : Obj (Frac × Frac) :=
  st.allElements.foldl (fun acc el =>
    oset acc el (sideTotal st.rCounts st.rCoeffs el, sideTotal st.pCounts st.pCoeffs el)) []

structure DebugInfo where
  elements : List String
  reactants : Obj (Obj Int)
  products : Obj (Obj Int)
  balanceCheck : Obj (Frac × Frac)
deriving DecidableEq, Repr

structure SuccessData where
  coefficients : Obj Frac
  balancedString : String
  debug : DebugInfo
deriving DecidableEq, Repr

/-- `BalancedResult`: the terminal output type of `balance`. -/
inductive BalancedResult where
  | success (data : SuccessData)
  | error (message : String)
deriving DecidableEq, Repr

/-- Assembly of the success result object. -/
def mkResult (st : PipelineState) : SuccessData :=
  ⟨coefficientsMap st,
   formatSide st.rMols st.rCoeffs ++ " -> " ++ formatSide st.pMols st.pCoeffs,
   ⟨st.allElements, debugSideMap st.rMols st.rCounts, debugSideMap st.pMols st.pCounts,
    balanceCheckMap st⟩⟩

/-- `ChemicalBalancer.balance`: the single catch boundary — a raised
error becomes a `status: error` result carrying the raised message. -/
def balance (equation : String) : BalancedResult :=
  match balancePipeline equation with
  | .ok st => .success (mkResult st)
  | .error m => .error m

/-! Projections of `BalancedResult`, used to state concrete facts about
specific fields of a result. -/

def BalancedResult.isSuccess : BalancedResult → Bool
  | .success _ => true
  | .error _ => false

def getCoefficients : BalancedResult → Option (Obj Frac)
  | .success d => some d.coefficients
  | .error _ => none

def getBalanceCheck : BalancedResult → Option (Obj (Frac × Frac))
  | .success d => some d.debug.balanceCheck
  | .error _ => none

def getBalancedString : BalancedResult → Option String
  | .success d => some d.balancedString
  | .error _ => none

/-! Claim-side notions (formalising the words of the specification, to
be compared with the behaviour of the embedded code). -/

/-- The five separator strings, in the alternation order of the source
regex. -/
def sepsList : List String := ["->", "=>", "=", "→", "⇌"]

/-- Claim-side: every occurrence of a separator in the equation — a
position together with the separator string matching there. -/
def sepOccurrences (cs : List Char) : List (Nat × String) :=
  (List.range cs.length).flatMap (fun i =>
    (sepsList.filter (fun sep => sep.data.isPrefixOf (cs.drop i))).map (fun sep => (i, sep)))

end ChemicalBalancer

/-! ## General lemmas about the embedded operations -/

theorem olookup_mem {α : Type} {m : Obj α} {k : String} {v : α}
    (h : olookup m k = some v) : (k, v) ∈ m := by
  induction m with
  | nil => simp [olookup] at h
  | cons a rest ih =>
    obtain ⟨a1, a2⟩ := a
    simp only [olookup] at h
    by_cases hk : a1 = k
    · subst hk
      rw [if_pos rfl] at h
      cases h
      exact List.mem_cons_self _ _
    · rw [if_neg hk] at h
      exact List.mem_cons_of_mem _ (ih h)

theorem olookup_oset {α : Type} (m : Obj α) (k : String) (v : α) (k' : String) :
    olookup (oset m k v) k' = if k = k' then some v else olookup m k' := by
  induction m with
  | nil => simp only [oset, olookup]
  | cons a rest ih =>
    obtain ⟨a1, a2⟩ := a
    simp only [oset]
    by_cases ha : a1 = k
    · subst ha
      rw [if_pos rfl]
      simp only [olookup]
      by_cases hk : a1 = k' <;> simp [hk]
    · rw [if_neg ha]
      simp only [olookup, ih]
      by_cases h1 : a1 = k' <;> by_cases h2 : k = k' <;> simp_all

theorem mem_oset {α : Type} {m : Obj α} {k : String} {v : α} {p : String × α}
    (h : p ∈ oset m k v) : p = (k, v) ∨ p ∈ m := by
  induction m with
  | nil => simpa [oset] using h
  | cons a rest ih =>
    simp only [oset] at h
    by_cases ha : a.1 = k
    · rw [if_pos ha] at h
      rcases List.mem_cons.mp h with h | h
      · exact Or.inl h
      · exact Or.inr (List.mem_cons_of_mem _ h)
    · rw [if_neg ha] at h
      rcases List.mem_cons.mp h with h | h
      · exact Or.inr (h ▸ List.mem_cons_self _ _)
      · rcases ih h with h | h
        · exact Or.inl h
        · exact Or.inr (List.mem_cons_of_mem _ h)

theorem okeys_oset {α : Type} (m : Obj α) (k : String) (v : α) :
    okeys (oset m k v) = if k ∈ okeys m then okeys m else okeys m ++ [k] := by
  induction m with
  | nil => simp [oset, okeys]
  | cons a rest ih =>
    simp only [oset, okeys]
    by_cases ha : a.1 = k
    · rw [if_pos ha]
      simp [okeys, ha]
    · rw [if_neg ha]
      simp only [okeys, List.map_cons] at ih ⊢
      rw [ih]
      have hne : ¬ k = a.1 := fun h => ha h.symm
      by_cases hk : k ∈ List.map Prod.fst rest
      · simp [hk, hne]
      · simp [hk, hne]

theorem mem_storeAll {α : Type} {pairs : List (String × α)} {init : Obj α}
    {q : String × α} (h : q ∈ storeAll init pairs) : q ∈ pairs ∨ q ∈ init := by
  induction pairs generalizing init with
  | nil => exact Or.inr h
  | cons p rest ih =>
    rcases ih (by simpa [storeAll] using h) with h1 | h1
    · exact Or.inl (List.mem_cons_of_mem _ h1)
    · rcases mem_oset h1 with h2 | h2
      · exact Or.inl (by simp [h2])
      · exact Or.inr h2

theorem olookup_storeAll {α : Type} (pairs : List (String × α)) (init : Obj α)
    (k : String) :
    olookup (storeAll init pairs) k =
      match pairs.reverse.find? (fun p => p.1 = k) with
      | some p => some p.2
      | none => olookup init k := by
  induction pairs generalizing init with
  | nil => simp [storeAll]
  | cons p rest ih =>
    show olookup (storeAll (oset init p.1 p.2) rest) k = _
    rw [ih]
    simp only [List.reverse_cons, List.find?_append]
    cases hf : rest.reverse.find? (fun q => q.1 = k) with
    | some q => simp [hf]
    | none =>
      simp only [hf, Option.none_orElse, olookup_oset]
      by_cases hk : p.1 = k
      · simp [List.find?, hk]
      · simp [List.find?, hk]

theorem nodup_okeys_storeAll {α : Type} {init : Obj α}
    (hinit : (okeys init).Nodup) (pairs : List (String × α)) :
    (okeys (storeAll init pairs)).Nodup := by
  induction pairs generalizing init with
  | nil => exact hinit
  | cons p rest ih =>
    refine ih ?_
    rw [okeys_oset]
    by_cases hk : p.1 ∈ okeys init
    · simpa [hk] using hinit
    · simp only [hk, if_false]
      simpa [List.nodup_append] using ⟨hinit, hk⟩

theorem except_bind_ok {ε α β : Type} {x : Except ε α} {f : α → Except ε β} {b : β}
    (h : x >>= f = .ok b) : ∃ a, x = .ok a ∧ f a = .ok b := by
  cases x with
  | error e =>
    simp only [Bind.bind, Except.bind] at h
    exact absurd h (by simp)
  | ok a =>
    refine ⟨a, rfl, ?_⟩
    simpa only [Bind.bind, Except.bind] using h

theorem except_map_ok {ε α β : Type} {x : Except ε α} {f : α → β} {b : β}
    (h : x.map f = .ok b) : ∃ a, x = .ok a ∧ f a = b := by
  cases x with
  | error e => simp [Except.map] at h
  | ok a =>
    refine ⟨a, rfl, ?_⟩
    simpa [Except.map] using h

/-! ## Lemmas about the orchestrator pipeline -/

namespace ChemicalBalancer

/-- Inversion of a successful pipeline run: every field of the state is
the corresponding stage expression of the source. -/
theorem pipeline_inversion (equation : String) (st : PipelineState)
    (hok : balancePipeline equation = .ok st) :
    findSep equation.data = some st.sep ∧
    (splitOnStr equation.data st.sep).length = 2 ∧
    st.rStr = (splitOnStr equation.data st.sep).getD 0 [] ∧
    st.pStr = (splitOnStr equation.data st.sep).getD 1 [] ∧
    st.rMols = sideMolecules (tokenData st.rStr) ∧
    st.pMols = sideMolecules (tokenData st.pStr) ∧
    parseCounts st.rMols = .ok st.rCounts ∧
    parseCounts st.pMols = .ok st.pCounts ∧
    st.userCoefficients =
      storeAll [] (sideHints (tokenData st.rStr) ++ sideHints (tokenData st.pStr)) ∧
    MathSolver.solve st.rCounts st.pCounts = .ok st.solveResult ∧
    st.scalingFactor = computeScalingFactor
      (scalingState st.userCoefficients st.pMols (st.solveResult.drop st.rMols.length)
        (scalingState st.userCoefficients st.rMols (st.solveResult.take st.rMols.length)
          (true, none))) ∧
    st.rCoeffs = (st.solveResult.take st.rMols.length).map
      (fun x => (Frac.ofNat x).mul st.scalingFactor) ∧
    st.pCoeffs = (st.solveResult.drop st.rMols.length).map
      (fun x => (Frac.ofNat x).mul st.scalingFactor) := by
  unfold balancePipeline at hok
  split at hok
  · exact absurd hok (by simp)
  · split at hok
    · exact absurd hok (by simp)
    · rename_i sep hsep
      dsimp only at hok
      split at hok
      · exact absurd hok (by simp)
      · rename_i hlen
        obtain ⟨rCounts, hrc, hok⟩ := except_bind_ok hok
        obtain ⟨pCounts, hpc, hok⟩ := except_bind_ok hok
        split at hok
        · exact absurd hok (by simp)
        · obtain ⟨u, hcons, hok⟩ := except_bind_ok hok
          obtain ⟨sr, hsolve, hok⟩ := except_bind_ok hok
          cases hok
          refine ⟨hsep, ?_, rfl, rfl, rfl, rfl, hrc, hpc, rfl, hsolve, rfl, rfl, rfl⟩
          show (splitOnStr equation.data sep).length = 2
          omega

/-- No separator matches at a position holding a whitespace character. -/
theorem sepAt_ws (c : Char) (rest : List Char) (hw : isWs c = true) :
    sepAt (c :: rest) = none := by
  have h1 : ('-' : Char) ≠ c := by rintro rfl; exact absurd hw (by decide)
  have h2 : ('=' : Char) ≠ c := by rintro rfl; exact absurd hw (by decide)
  have h3 : ('→' : Char) ≠ c := by rintro rfl; exact absurd hw (by decide)
  have h4 : ('⇌' : Char) ≠ c := by rintro rfl; exact absurd hw (by decide)
  unfold sepAt
  simp [List.isPrefixOf, h1, h2, h3, h4]

/-- A string consisting of whitespace contains no separator match. -/
theorem findSep_none_of_ws (cs : List Char) (h : cs.all isWs = true) :
    findSep cs = none := by
  induction cs with
  | nil => rfl
  | cons c rest ih =>
    simp only [List.all_cons, Bool.and_eq_true] at h
    unfold findSep
    rw [sepAt_ws c rest h.1]
    exact ih h.2

/-- When the first-matched separator splits the equation into a number
of parts other than two, the pipeline raises the multiple-separators
error. -/
theorem pipeline_multiplesep (equation : String) (sep : String)
    (hsep : findSep equation.data = some sep)
    (hlen : (splitOnStr equation.data sep).length ≠ 2) :
    balancePipeline equation = .error msgMultipleSeparators := by
  unfold balancePipeline
  rw [if_neg, hsep]
  · dsimp only
    rw [if_pos hlen]
  · intro hws
    rw [findSep_none_of_ws _ hws] at hsep
    cases hsep

theorem splitOnGo_ne_nil (sepL : List Char) :
    ∀ (fuel : Nat) (acc cs : List Char), splitOnGo sepL fuel acc cs ≠ [] := by
  intro fuel
  induction fuel with
  | zero => intro acc cs; simp [splitOnGo]
  | succ f ih =>
    intro acc cs
    simp only [splitOnGo]
    split
    · simp
    · cases cs with
      | nil => simp
      | cons c rest => exact ih _ _

/-- Splitting then rejoining with the separator is the identity. -/
theorem splitOnGo_join (sepL : List Char) (hne : sepL ≠ []) :
    ∀ (fuel : Nat) (acc cs : List Char), cs.length < fuel →
      joinWithSep sepL (splitOnGo sepL fuel acc cs) = acc ++ cs := by
  intro fuel
  induction fuel with
  | zero => intro acc cs h; omega
  | succ f ih =>
    intro acc cs h
    simp only [splitOnGo]
    by_cases hpre : sepL.isPrefixOf cs ∧ sepL ≠ []
    · have hb : (sepL.isPrefixOf cs && !sepL.isEmpty) = true := by
        simp [hpre.1, hpre.2]
      rw [if_pos hb]
      obtain ⟨t, ht⟩ := List.isPrefixOf_iff_prefix.mp hpre.1
      have hdrop : cs.drop sepL.length = t := by
        rw [← ht]; simp
      have hlt : (cs.drop sepL.length).length < f := by
        rw [hdrop]
        have : cs.length = sepL.length + t.length := by rw [← ht]; simp
        have hs : 0 < sepL.length := List.length_pos.mpr hne
        omega
      have hrec := ih [] (cs.drop sepL.length) hlt
      cases hsp : splitOnGo sepL f [] (cs.drop sepL.length) with
      | nil => exact absurd hsp (splitOnGo_ne_nil sepL f [] _)
      | cons a rest =>
        rw [hsp] at hrec
        show joinWithSep sepL (acc :: a :: rest) = acc ++ cs
        show acc ++ sepL ++ joinWithSep sepL (a :: rest) = acc ++ cs
        rw [hrec, hdrop, ← ht]
        simp
    · have hb : ¬((sepL.isPrefixOf cs && !sepL.isEmpty) = true) := by
        simp only [Bool.and_eq_true, Bool.not_eq_true']
        intro hcon
        exact hpre ⟨hcon.1, by simpa [List.isEmpty_iff] using hcon.2⟩
      rw [if_neg hb]
      cases cs with
      | nil => simp [joinWithSep]
      | cons c rest =>
        have := ih (acc ++ [c]) rest (by simp at h; omega)
        rw [this]
        simp

theorem splitOnStr_join (cs : List Char) (sep : String) (hne : sep.data ≠ []) :
    joinWithSep sep.data (splitOnStr cs sep) = cs :=
  splitOnGo_join sep.data hne _ [] cs (Nat.lt_succ_self _)

/-- A one-position separator match yields one of the five separator
strings. -/
theorem sepAt_mem (cs : List Char) (s : String) (h : sepAt cs = some s) :
    s ∈ sepsList := by
  unfold sepAt at h
  split_ifs at h <;> (injection h with h2; subst h2; decide)

/-- A successful separator search yields one of the five separator
strings. -/
theorem findSep_mem : ∀ (cs : List Char) (s : String),
    findSep cs = some s → s ∈ sepsList := by
  intro cs
  induction cs with
  | nil => intro s h; cases h
  | cons c rest ih =>
    intro s h
    unfold findSep at h
    cases hs : sepAt (c :: rest) with
    | some t =>
      simp only [hs] at h
      injection h with h2
      subst h2
      exact sepAt_mem _ _ hs
    | none =>
      simp only [hs] at h
      exact ih s h

/-- A successful separator match is one of the five separator strings,
so its character list is non-empty. -/
theorem findSep_data_ne_nil (cs : List Char) (s : String)
    (h : findSep cs = some s) : s.data ≠ [] := by
  have hm := findSep_mem cs s h
  simp only [sepsList, List.mem_cons, List.mem_singleton] at hm
  rcases hm with rfl | rfl | rfl | rfl | rfl | h0
  · decide
  · decide
  · decide
  · decide
  · decide
  · simp at h0

/-- With no hints recorded, the scaling scan leaves its state alone. -/
theorem scalingState_nil (mols : List String) (coeffs : List Nat)
    (st : Bool × Option Frac) : scalingState [] mols coeffs st = st := by
  unfold scalingState
  generalize mols.zip coeffs = l
  induction l generalizing st with
  | nil => rfl
  | cons p rest ih =>
    simp only [List.foldl_cons]
    have hstep : checkScalingStep [] st p.1 p.2 = st := rfl
    rw [hstep]
    exact ih st

/-- Multiplying an integer-valued fraction by 1 is the identity. -/
theorem ofNat_mul_one (n : Nat) : (Frac.ofNat n).mul frac1 = Frac.ofNat n := by
  simp only [Frac.mul, Frac.ofNat, frac1, Frac.mk', mul_one, Nat.mul_one]
  rw [if_neg (by omega)]
  simp [jsGcd, gcdGo, Nat.mod_one]

/-- `solve` returns either the all-zero vector (trivial null space) or
a normalised vector. -/
theorem solve_shape (r p : List (Obj Int)) (w : List Nat)
    (h : MathSolver.solve r p = .ok w) :
    (∃ n, w = List.replicate n 0) ∨ (∃ v, w = MathSolver.normalize v) := by
  unfold MathSolver.solve at h
  dsimp only at h
  split at h
  · exact absurd h (by simp)
  · split at h
    · cases h; exact Or.inl ⟨_, rfl⟩
    · cases h; exact Or.inr ⟨_, rfl⟩
    · split at h
      · cases h; exact Or.inr ⟨_, rfl⟩
      · cases h; exact Or.inr ⟨_, rfl⟩

end ChemicalBalancer

/-! ## Gcd facts about `reduceByGcd` / `normalize` -/

theorem foldl_gcd_dvd (l : List Nat) : ∀ a : Nat,
    (List.foldl Nat.gcd a l) ∣ a ∧ ∀ x ∈ l, (List.foldl Nat.gcd a l) ∣ x := by
  induction l with
  | nil => intro a; exact ⟨dvd_refl a, by simp⟩
  | cons x rest ih =>
    intro a
    simp only [List.foldl_cons]
    obtain ⟨h1, h2⟩ := ih (Nat.gcd a x)
    refine ⟨h1.trans (Nat.gcd_dvd_left a x), ?_⟩
    intro y hy
    rcases List.mem_cons.mp hy with rfl | hy
    · exact h1.trans (Nat.gcd_dvd_right a y)
    · exact h2 y hy

theorem foldl_gcd_div (g : Nat) (l : List Nat) : ∀ a : Nat, g ∣ a →
    (∀ x ∈ l, g ∣ x) →
    List.foldl Nat.gcd (a / g) (l.map (· / g)) = List.foldl Nat.gcd a l / g := by
  induction l with
  | nil => intro a _ _; rfl
  | cons x rest ih =>
    intro a ha hl
    simp only [List.map_cons, List.foldl_cons]
    rw [Nat.gcd_div ha (hl x (by simp))]
    exact ih (Nat.gcd a x) (Nat.dvd_gcd ha (hl x (by simp))) (fun y hy => hl y (by simp [hy]))

theorem jsGcd_funext : jsGcd = Nat.gcd :=
  funext fun a => funext fun b => jsGcd_eq_gcd a b

/-- The gcd-reduction step returns either an all-zero list or a list
whose collective gcd is exactly 1. -/
theorem reduceByGcd_gcd (fr : List Nat) :
    (∀ x ∈ MathSolver.reduceByGcd fr, x = 0) ∨
    List.foldl Nat.gcd 0 (MathSolver.reduceByGcd fr) = 1 := by
  match fr with
  | [] => left; simp [MathSolver.reduceByGcd]
  | f :: rest =>
    simp only [MathSolver.reduceByGcd, jsGcd_funext]
    obtain ⟨hdf, hdx⟩ := foldl_gcd_dvd rest f
    by_cases hg : rest.foldl Nat.gcd f = 0
    · left
      rw [if_pos hg]
      intro x hx
      rw [hg] at hdf hdx
      rcases List.mem_cons.mp hx with hx | hx
      · subst hx; exact Nat.eq_zero_of_zero_dvd hdf
      · exact Nat.eq_zero_of_zero_dvd (hdx x hx)
    · right
      rw [if_neg hg]
      simp only [List.map_cons, List.foldl_cons, Nat.gcd_zero_left]
      rw [foldl_gcd_div _ rest f hdf hdx]
      exact Nat.div_self (Nat.pos_of_ne_zero hg)

/-- `normalize` output: all zeros, or collective gcd exactly 1. -/
theorem normalize_gcd (v : List Frac) :
    (∀ x ∈ MathSolver.normalize v, x = 0) ∨
    List.foldl Nat.gcd 0 (MathSolver.normalize v) = 1 := by
  unfold MathSolver.normalize
  exact reduceByGcd_gcd _

theorem list_eq_pair_of_length_two {α : Type} (l : List α) (d : α)
    (h : l.length = 2) : l = [l.getD 0 d, l.getD 1 d] := by
  match l with
  | [a, b] => rfl
  | [] => simp at h
  | [a] => simp at h
  | a :: b :: c :: rest => simp at h

/-! ## Lemmas about the parser -/

theorem takeWhile_append_all {p : Char → Bool} (l1 l2 : List Char)
    (h : ∀ x ∈ l1, p x = true) :
    (l1 ++ l2).takeWhile p = l1 ++ l2.takeWhile p := by
  induction l1 with
  | nil => rfl
  | cons a t ih =>
    have ha := h a (by simp)
    simp [List.takeWhile_cons, ha, ih (fun x hx => h x (by simp [hx]))]

theorem dropWhile_append_all {p : Char → Bool} (l1 l2 : List Char)
    (h : ∀ x ∈ l1, p x = true) :
    (l1 ++ l2).dropWhile p = l2.dropWhile p := by
  induction l1 with
  | nil => rfl
  | cons a t ih =>
    simp only [List.cons_append, List.dropWhile_cons, h a (by simp)]
    exact ih (fun x hx => h x (by simp [hx]))

namespace Parser

theorem oget_nonneg {m : Obj Int} (hm : ∀ p ∈ m, 0 ≤ p.2) (k : String) :
    0 ≤ oget m k := by
  unfold oget
  cases h : olookup m k with
  | none => simp
  | some v => simpa using hm (k, v) (olookup_mem h)

theorem oget_nonneg_Q {m : Obj Int} (hm : ∀ p ∈ m, p.1 ≠ "_Q" → 0 ≤ p.2)
    (k : String) (hk : k ≠ "_Q") : 0 ≤ oget m k := by
  unfold oget
  cases h : olookup m k with
  | none => simp
  | some v => simpa using hm (k, v) (olookup_mem h) hk

/-- All counts accumulated by the simple-formula scan are
non-negative. -/
theorem simpleGo_nonneg (formula : List Char) (cv : Bool) :
    ∀ (fuel : Nat) (cs : List Char) (counts : Obj Int),
      (∀ p ∈ counts, 0 ≤ p.2) → ∀ m, simpleGo formula cv fuel cs counts = .ok m →
      ∀ p ∈ m, 0 ≤ p.2 := by
  intro fuel
  induction fuel with
  | zero =>
    intro cs counts hc m hok
    simp only [simpleGo] at hok
    cases hok
    exact hc
  | succ f ih =>
    intro cs counts hc m hok
    simp only [simpleGo] at hok
    split at hok
    · split at hok
      · exact absurd hok (by simp)
      · cases hok; exact hc
    · split at hok
      · exact absurd hok (by simp)
      · split at hok
        · exact absurd hok (by simp)
        · refine ih _ _ ?_ m hok
          intro p hp
          rcases mem_oset hp with heq | hp2
          · rw [heq]
            refine add_nonneg (oget_nonneg hc _) ?_
            split
            · exact Int.one_nonneg
            · exact Int.ofNat_nonneg _
          · exact hc p hp2

theorem parseSimpleFormula_nonneg (formula : List Char) (cv : Bool) (m : Obj Int)
    (hok : parseSimpleFormula formula cv = .ok m) : ∀ p ∈ m, 0 ≤ p.2 :=
  simpleGo_nonneg formula cv _ formula [] (by simp) m hok

/-- Merging non-negative entries into a record preserves
non-negativity away from the charge key. -/
theorem mergeFold_Q (entries : List (String × Int)) :
    ∀ (acc : Obj Int), (∀ p ∈ acc, p.1 ≠ "_Q" → 0 ≤ p.2) →
      (∀ p ∈ entries, 0 ≤ p.2) →
      ∀ p ∈ entries.foldl (fun a q => oset a q.1 (oget a q.1 + q.2)) acc,
        p.1 ≠ "_Q" → 0 ≤ p.2 := by
  induction entries with
  | nil => intro acc hacc _; exact hacc
  | cons q rest ih =>
    intro acc hacc hent
    simp only [List.foldl_cons]
    refine ih _ ?_ (fun p hp => hent p (List.mem_cons_of_mem _ hp))
    intro p hp hq
    rcases mem_oset hp with heq | hp2
    · subst heq
      exact add_nonneg (oget_nonneg_Q hacc _ hq) (hent q (by simp))
    · exact hacc p hp2 hq

/-- Merging with a multiplier (hydrate accumulation) likewise. -/
theorem mergeFoldMult_Q (entries : List (String × Int)) (mult : Nat) :
    ∀ (acc : Obj Int), (∀ p ∈ acc, p.1 ≠ "_Q" → 0 ≤ p.2) →
      (∀ p ∈ entries, p.1 ≠ "_Q" → 0 ≤ p.2) →
      ∀ p ∈ entries.foldl (fun a q => oset a q.1 (oget a q.1 + q.2 * (mult : Int))) acc,
        p.1 ≠ "_Q" → 0 ≤ p.2 := by
  induction entries with
  | nil => intro acc hacc _; exact hacc
  | cons q rest ih =>
    intro acc hacc hent
    simp only [List.foldl_cons]
    refine ih _ ?_ (fun p hp hq => hent p (List.mem_cons_of_mem _ hp) hq)
    intro p hp hq
    rcases mem_oset hp with heq | hp2
    · subst heq
      refine add_nonneg (oget_nonneg_Q hacc _ hq) ?_
      exact mul_nonneg (hent q (by simp) hq) (Int.ofNat_nonneg _)
    · exact hacc p hp2 hq

/-- Every element-count value produced by the standard formula parser
is non-negative; only the charge key may hold a negative value. -/
theorem parseStandardFormula_Q (formula : List Char) (m : Obj Int)
    (hok : parseStandardFormula formula = .ok m) :
    ∀ p ∈ m, p.1 ≠ "_Q" → 0 ≤ p.2 := by
  unfold parseStandardFormula at hok
  dsimp only at hok
  split at hok
  · cases hok
    intro p hp hq
    simp only [List.mem_singleton] at hp
    subst hp
    simp at hq
  · split at hok
    · cases hok
      intro p hp hq
      split at hp
      · simp only [List.mem_singleton] at hp
        subst hp
        simp at hq
      · cases hp
    · obtain ⟨processed, hpl, hok⟩ := except_bind_ok hok
      obtain ⟨finalCounts, hsf, hok⟩ := except_bind_ok hok
      cases hok
      refine mergeFold_Q finalCounts _ ?_
        (parseSimpleFormula_nonneg _ _ _ hsf)
      intro p hp hq
      split at hp
      · simp only [List.mem_singleton] at hp
        subst hp
        simp at hq
      · cases hp

/-- The hydrate accumulation preserves the invariant. -/
theorem hydrateGo_Q : ∀ (parts : List (List Char)) (idx : Nat) (total : Obj Int),
    (∀ p ∈ total, p.1 ≠ "_Q" → 0 ≤ p.2) →
    ∀ m, hydrateGo idx parts total = .ok m → ∀ p ∈ m, p.1 ≠ "_Q" → 0 ≤ p.2 := by
  intro parts
  induction parts with
  | nil =>
    intro idx total ht m hok
    simp only [hydrateGo] at hok
    cases hok
    exact ht
  | cons part rest ih =>
    intro idx total ht m hok
    simp only [hydrateGo] at hok
    obtain ⟨counts, hcs, hok⟩ := except_bind_ok hok
    exact ih _ _ (mergeFoldMult_Q counts _ total ht
      (parseStandardFormula_Q _ _ hcs)) m hok

theorem parseFormulaWithState_Q (formula : String) (pf : ParsedFormula)
    (hok : parseFormulaWithState formula = .ok pf) :
    ∀ p ∈ pf.elements, p.1 ≠ "_Q" → 0 ≤ p.2 := by
  unfold parseFormulaWithState at hok
  dsimp only at hok
  split at hok
  · obtain ⟨total, hh, hok⟩ := except_bind_ok hok
    cases hok
    exact hydrateGo_Q _ 0 [] (by simp) total hh
  · obtain ⟨elements, he, hok⟩ := except_bind_ok hok
    cases hok
    exact parseStandardFormula_Q _ _ he

/-- The caret-charge pattern `\^(\d*)([+-])$` is extracted whenever it
is present: the magnitude defaults to 1 for an empty digit run, the
sign picks the charge sign, and exactly the matched suffix is removed. -/
theorem extractCharge_caret (pre digs : List Char) (sign : Char)
    (hdigs : ∀ d ∈ digs, isDigit d = true) (hsign : sign = '+' ∨ sign = '-') :
    extractCharge (pre ++ '^' :: digs ++ [sign]) =
      (if sign = '+' then ((if digs.isEmpty then 1 else natOfDigits digs : Nat) : Int)
       else -((if digs.isEmpty then 1 else natOfDigits digs : Nat) : Int), pre) := by
  unfold extractCharge
  have hrev : (pre ++ '^' :: digs ++ [sign]).reverse
      = sign :: (digs.reverse ++ '^' :: pre.reverse) := by
    simp
  rw [hrev]
  have hsb : (decide (sign = '+') || decide (sign = '-')) = true := by
    rcases hsign with rfl | rfl <;> decide
  split
  case h_1 heq => cases heq
  case h_2 sign1 rest heq =>
  injection heq with heq1 heq2
  subst heq1
  subst heq2
  rw [if_pos hsb]
  dsimp only
  have hdr : ∀ x ∈ digs.reverse, isDigit x = true :=
    fun x hx => hdigs x (List.mem_reverse.mp hx)
  rw [takeWhile_append_all _ _ hdr, dropWhile_append_all _ _ hdr]
  have hcar : isDigit '^' = false := by decide
  simp only [List.takeWhile_cons, hcar, Bool.false_eq_true, if_false,
    List.dropWhile_cons, List.append_nil]
  simp only [List.reverse_reverse]
  by_cases hd : digs = []
  · simp [hd]
  · have h1 : digs.reverse.isEmpty = false := by
      simp [List.isEmpty_iff, hd]
    have h2 : digs.isEmpty = false := by simp [List.isEmpty_iff, hd]
    simp [h1, h2]

/-- A trailing bare `+`/`-` is extracted with magnitude 1 when the
caret pattern is absent (the text does not end `^<digits><sign>`). -/
theorem extractCharge_bare (pre : List Char) (sign : Char)
    (hsign : sign = '+' ∨ sign = '-')
    (hnc : (pre.reverse.dropWhile isDigit).headD ' ' ≠ '^') :
    extractCharge (pre ++ [sign]) = (if sign = '+' then (1 : Int) else -1, pre) := by
  unfold extractCharge
  have hrev : (pre ++ [sign]).reverse = sign :: pre.reverse := by simp
  rw [hrev]
  have hsb : (decide (sign = '+') || decide (sign = '-')) = true := by
    rcases hsign with rfl | rfl <;> decide
  split
  case h_1 heq => cases heq
  case h_2 sign1 rest heq =>
  injection heq with heq1 heq2
  subst heq1
  subst heq2
  rw [if_pos hsb]
  dsimp only
  split
  case h_1 before heq2 =>
    exact absurd (by rw [heq2]; rfl) hnc
  case h_2 _ _ =>
    simp

end Parser

/-! ## Claim theorems -/

open ChemicalBalancer

/-- C1: the claim states that every successful result conserves every
element: each entry of the returned `debug.balanceCheck` table has
`left = right`.  The code violates this: `solve` takes componentwise
absolute values of a mixed-sign null-space vector, so
`balance "H2O2 + O2 -> H2O"` is a success whose oxygen row has
`left = 6` and `right = 2`. -/
theorem claim_C1 :
    getBalanceCheck (balance "H2O2 + O2 -> H2O") =
      some [("H", (⟨4, 1⟩ : Frac), (⟨4, 1⟩ : Frac)), ("O", ⟨6, 1⟩, ⟨2, 1⟩)] ∧
    olookup [("H", ((⟨4, 1⟩ : Frac), (⟨4, 1⟩ : Frac))), ("O", ⟨6, 1⟩, ⟨2, 1⟩)] "O" =
      some (⟨6, 1⟩, ⟨2, 1⟩) ∧
    ((⟨6, 1⟩ : Frac) ≠ ⟨2, 1⟩) := by decide

/-- C2: `balance` never throws — every input yields either a success
result or an error result, and the message of an error result is
exactly the message of the error raised inside the pipeline. -/
theorem claim_C2 (equation : String) :
    (∃ d, balance equation = .success d) ∨
    (∃ m, balance equation = .error m ∧ balancePipeline equation = .error m) := by
  cases h : balancePipeline equation with
  | ok st => exact Or.inl ⟨mkResult st, by simp [balance, h]⟩
  | error m =>
    refine Or.inr ⟨m, ?_, rfl⟩
    simp [balance, h]

/-- C3 counterexample: the claim asserts that on hint-free successes
every returned coefficient is positive and the gcd of the returned
coefficients map is 1.  Both conjuncts fail on the code:
`balance "H2 + H2 -> H2"` (no hints) returns the single-entry map
`H2 = 2` — the duplicate reactant text collapses away the odd
coefficients, leaving a gcd of 2 — and `balance "H4O2 + H2 -> H2O"`
(no hints) returns the coefficient `0` for `H2`, which is not
positive. -/
theorem claim_C3_counterexample :
    ((balancePipeline "H2 + H2 -> H2").toOption.map (·.userCoefficients) = some [] ∧
     getCoefficients (balance "H2 + H2 -> H2") = some [("H2", ⟨2, 1⟩)] ∧
     Nat.gcd 0 2 = 2) ∧
    ((balancePipeline "H4O2 + H2 -> H2O").toOption.map (·.userCoefficients) = some [] ∧
     getCoefficients (balance "H4O2 + H2 -> H2O") =
       some [("H4O2", ⟨1, 1⟩), ("H2", ⟨0, 1⟩), ("H2O", ⟨2, 1⟩)] ∧
     ¬(0 < (⟨0, 1⟩ : Frac).num)) := by decide

/-- C4: the claim states that a consistent hint ratio that is not a
positive integer makes the code ignore all hints and return the
minimal vector.  The code instead adopts the fractional scale through
its `Number.isInteger(detectedScale * 100000)` branch: with minimal
solution `4, 3, 2`, the hint in `2Fe + O2 -> Fe2O3` gives ratio `1/2`
and the result is scaled to `2, 3/2, 1` — a non-integer coefficient —
rather than the minimal `4, 3, 2`.  The claim's two concrete examples
do hold: `8Fe + O2 -> Fe2O3` yields `8, 6, 4` and
`100Fe + 100O2 -> 1Fe2O3` yields `4, 3, 2`. -/
theorem claim_C4 :
    getCoefficients (balance "Fe + O2 -> Fe2O3") =
      some [("Fe", ⟨4, 1⟩), ("O2", ⟨3, 1⟩), ("Fe2O3", ⟨2, 1⟩)] ∧
    getCoefficients (balance "2Fe + O2 -> Fe2O3") =
      some [("Fe", ⟨2, 1⟩), ("O2", ⟨3, 2⟩), ("Fe2O3", ⟨1, 1⟩)] ∧
    ((⟨3, 2⟩ : Frac).den ≠ 1) ∧
    getCoefficients (balance "8Fe + O2 -> Fe2O3") =
      some [("Fe", ⟨8, 1⟩), ("O2", ⟨6, 1⟩), ("Fe2O3", ⟨4, 1⟩)] ∧
    getCoefficients (balance "100Fe + 100O2 -> 1Fe2O3") =
      some [("Fe", ⟨4, 1⟩), ("O2", ⟨3, 1⟩), ("Fe2O3", ⟨2, 1⟩)] := by decide

/-- C5: the claim's first half holds — with a trivial null space
(`HO -> H2O3` has a full-rank conservation matrix) `solve` returns the
all-zero vector — but the second half fails: `balance` does not surface
this as an error; it returns a success result with all-zero
coefficients. -/
theorem claim_C5 :
    MathSolver.solve [[("H", 1), ("O", 1)]] [[("H", 2), ("O", 3)]] = .ok [0, 0] ∧
    (balance "HO -> H2O3").isSuccess = true ∧
    getCoefficients (balance "HO -> H2O3") =
      some [("HO", ⟨0, 1⟩), ("H2O3", ⟨0, 1⟩)] ∧
    getBalancedString (balance "HO -> H2O3") = some "0HO -> 0H2O3" := by decide

/-- C6: parser correctness on the claim's concrete shapes, including
the hydrate sum rule: the counts of `CuSO4.5H2O` equal the counts of
`CuSO4` plus five times the counts of `H2O`, elementwise. -/
theorem claim_C6 :
    Parser.parseFormula "Mg(OH)2" = .ok [("Mg", 1), ("O", 2), ("H", 2)] ∧
    Parser.parseFormula "K4Fe(CN)6" = .ok [("K", 4), ("Fe", 1), ("C", 6), ("N", 6)] ∧
    Parser.parseFormula "CuSO4.5H2O" = .ok [("Cu", 1), ("S", 1), ("O", 9), ("H", 10)] ∧
    Parser.parseFormula "CuSO4" = .ok [("Cu", 1), ("S", 1), ("O", 4)] ∧
    Parser.parseFormula "H2O" = .ok [("H", 2), ("O", 1)] ∧
    (∀ k ∈ ["Cu", "S", "O", "H"],
      oget [("Cu", 1), ("S", 1), ("O", 9), ("H", 10)] k =
        oget [("Cu", 1), ("S", 1), ("O", 4)] k + 5 * oget [("H", 2), ("O", 1)] k) := by
  decide

/-- C8 counterexample: the claim asserts every value of an accepted
`ElementCounts` map — including the charge pseudo-symbol value — is a
non-negative integer, but the electron token parses to a charge value
of `-1`. -/
theorem claim_C8_counterexample :
    Parser.parseFormula "e" = .ok [("_Q", -1)] ∧
    olookup [(("_Q" : String), (-1 : Int))] "_Q" = some (-1) ∧ ((-1 : Int) < 0) := by
  decide

/-- C9 counterexample: `H2 => H2` contains two distinct separator
occurrences (`=>` and the `=` embedded in it), yet `balance` succeeds
instead of returning the error the claim requires for more than one
distinct separator occurrence. -/
theorem claim_C9_counterexample :
    sepOccurrences ("H2 => H2").data = [(3, "=>"), (3, "=")] ∧
    (sepOccurrences ("H2 => H2").data).length > 1 ∧
    (balance "H2 => H2").isSuccess = true := by decide

/-- C9 amended: `balance` errors when no separator matches anywhere;
when the first-matched separator (leftmost position, alternation order
`->`, `=>`, `=`, `→`, `⇌`) occurs more than once as a literal
substring, the result is the multiple-separators error; and on every
successful run the equation was split at the first-matched separator
into exactly the two sides the pipeline continues with. -/
theorem claim_C9_amended (equation : String) :
    (findSep equation.data = none → ∃ m, balance equation = .error m) ∧
    (∀ sep, findSep equation.data = some sep →
      (splitOnStr equation.data sep).length ≠ 2 →
      balance equation = .error msgMultipleSeparators) ∧
    (∀ st, balancePipeline equation = .ok st →
      findSep equation.data = some st.sep ∧
      splitOnStr equation.data st.sep = [st.rStr, st.pStr] ∧
      equation.data = st.rStr ++ st.sep.data ++ st.pStr) := by
  refine ⟨?_, ?_, ?_⟩
  · intro hnone
    cases h : balancePipeline equation with
    | error m => exact ⟨m, by simp [balance, h]⟩
    | ok st =>
      have h1 := (pipeline_inversion equation st h).1
      rw [hnone] at h1
      cases h1
  · intro sep hsep hlen
    have h := pipeline_multiplesep equation sep hsep hlen
    simp [balance, h]
  · intro st hok
    obtain ⟨h1, h2, h3, h4, _⟩ := pipeline_inversion equation st hok
    have hpair := list_eq_pair_of_length_two (splitOnStr equation.data st.sep) [] h2
    rw [← h3, ← h4] at hpair
    refine ⟨h1, hpair, ?_⟩
    have hjoin := splitOnStr_join equation.data st.sep
      (findSep_data_ne_nil equation.data st.sep h1)
    rw [hpair] at hjoin
    simp only [joinWithSep] at hjoin
    exact hjoin.symm

/-- Witness for the amended C9, at two concrete inputs: an equation
with no separator errors, and an equation whose first-matched
separator occurs twice receives the multiple-separators error. -/
theorem claim_C9_amended_witness :
    (∃ m, balance "H2 + O2" = .error m) ∧
    balance "a -> b -> c" = .error msgMultipleSeparators := by
  constructor
  · exact (claim_C9_amended "H2 + O2").1 (by decide)
  · exact (claim_C9_amended "a -> b -> c").2.1 "->" (by decide) (by decide)

/-- C10: duplicate molecule texts collapse at the public interface: the
coefficients map has one (deduplicated) entry per molecule text,
holding the coefficient of the last processed occurrence (products
after reactants); `balancedString` still renders every occurrence with
its own coefficient; and of several hints for the same molecule text
only the last one is retained. -/
theorem claim_C10 (equation : String) (st : PipelineState)
    (hok : balancePipeline equation = .ok st) :
    (okeys (mkResult st).coefficients).Nodup ∧
    (∀ mol, olookup (mkResult st).coefficients mol =
      ((((st.rMols.zip st.rCoeffs) ++ (st.pMols.zip st.pCoeffs)).reverse.find?
        (fun p => p.1 = mol)).map (·.2))) ∧
    ((mkResult st).balancedString =
      String.intercalate " + " ((st.rMols.zip st.rCoeffs).map (fun p =>
        (if p.2 = frac1 then "" else fracRender p.2) ++ p.1)) ++ " -> " ++
      String.intercalate " + " ((st.pMols.zip st.pCoeffs).map (fun p =>
        (if p.2 = frac1 then "" else fracRender p.2) ++ p.1))) ∧
    (∀ mol, olookup st.userCoefficients mol =
      (((sideHints (tokenData st.rStr) ++ sideHints (tokenData st.pStr)).reverse.find?
        (fun p => p.1 = mol)).map (·.2))) := by
  obtain ⟨_, _, _, _, _, _, _, _, huser, _⟩ := pipeline_inversion equation st hok
  refine ⟨?_, ?_, rfl, ?_⟩
  · exact nodup_okeys_storeAll (by simp [okeys]) _
  · intro mol
    show olookup (storeAll [] _) mol = _
    rw [olookup_storeAll]
    cases hf : ((st.rMols.zip st.rCoeffs) ++ (st.pMols.zip st.pCoeffs)).reverse.find?
        (fun p => p.1 = mol) <;> simp [olookup]
  · intro mol
    rw [huser, olookup_storeAll]
    cases hf : ((sideHints (tokenData st.rStr) ++ sideHints (tokenData st.pStr)).reverse.find?
        (fun p => p.1 = mol)) <;> simp [olookup]

/-- Witness for C10 at `2H2O + 3H2O -> 5H2O`: the three occurrences of
`H2O` collapse to the single map entry holding the last occurrence's
coefficient 2, and of the three hints (2, 3, 5) the last one (5) is
retained. -/
theorem claim_C10_witness :
    ∃ st, balancePipeline "2H2O + 3H2O -> 5H2O" = .ok st ∧
      olookup (mkResult st).coefficients "H2O" =
        ((((st.rMols.zip st.rCoeffs) ++ (st.pMols.zip st.pCoeffs)).reverse.find?
          (fun p => p.1 = "H2O")).map (·.2)) ∧
      olookup (mkResult st).coefficients "H2O" = some ⟨2, 1⟩ ∧
      olookup st.userCoefficients "H2O" = some 5 := by
  cases hok : balancePipeline "2H2O + 3H2O -> 5H2O" with
  | error m =>
    have h0 : (balancePipeline "2H2O + 3H2O -> 5H2O").toOption = none := by
      rw [hok]; rfl
    exact absurd h0 (by decide)
  | ok st =>
    refine ⟨st, rfl, (claim_C10 _ st hok).2.1 "H2O", ?_, ?_⟩
    · have h1 : (balancePipeline "2H2O + 3H2O -> 5H2O").toOption.map
          (fun s => olookup (mkResult s).coefficients "H2O") = some (some ⟨2, 1⟩) := by
        decide
      rw [hok] at h1
      simp only [Except.toOption, Option.map_some'] at h1
      exact Option.some.inj h1
    · have h2 : (balancePipeline "2H2O + 3H2O -> 5H2O").toOption.map
          (fun s => olookup s.userCoefficients "H2O") = some (some 5) := by decide
      rw [hok] at h2
      simp only [Except.toOption, Option.map_some'] at h2
      exact Option.some.inj h2

/-- C3 amended: for every successful hint-free balance, the solved
per-occurrence coefficient vector is a vector of non-negative integers
whose gcd is exactly 1 unless it is all zeros, and every value of the
returned coefficients map is drawn from that vector (hence a
non-negative integer). -/
theorem claim_C3_amended (equation : String) (st : PipelineState)
    (hok : balancePipeline equation = .ok st)
    (hnohints : st.userCoefficients = []) :
    ∃ w : List Nat,
      MathSolver.solve st.rCounts st.pCounts = .ok w ∧
      st.rCoeffs ++ st.pCoeffs = w.map Frac.ofNat ∧
      ((¬ ∀ x ∈ w, x = 0) → List.foldl Nat.gcd 0 w = 1) ∧
      (∀ p ∈ (mkResult st).coefficients, ∃ n ∈ w,
        p.2 = Frac.ofNat n ∧ 0 ≤ p.2.num ∧ p.2.den = 1) := by
  obtain ⟨_, _, _, _, _, _, _, _, _, hsolve, hscale, hrc, hpc⟩ :=
    pipeline_inversion equation st hok
  have hfac : st.scalingFactor = frac1 := by
    rw [hscale, hnohints, scalingState_nil, scalingState_nil]
    rfl
  have hcoeffs : st.rCoeffs ++ st.pCoeffs = st.solveResult.map Frac.ofNat := by
    rw [hrc, hpc, hfac]
    simp only [ofNat_mul_one]
    rw [← List.map_append, List.take_append_drop]
  refine ⟨st.solveResult, hsolve, hcoeffs, ?_, ?_⟩
  · intro hnz
    rcases solve_shape _ _ _ hsolve with ⟨n, hrep⟩ | ⟨v, hnorm⟩
    · exact absurd (fun x hx => List.eq_of_mem_replicate (hrep ▸ hx)) hnz
    · rcases normalize_gcd v with hall | hgcd
      · exact absurd (fun x hx => hall x (hnorm ▸ hx)) hnz
      · rw [hnorm]
        exact hgcd
  · intro p hp
    have hmem : p ∈ ((st.rMols.zip st.rCoeffs) ++ (st.pMols.zip st.pCoeffs)) ∨
        p ∈ ([] : Obj Frac) := mem_storeAll hp
    rcases hmem with hmem | hmem
    · obtain ⟨a, b⟩ := p
      have hb : b ∈ st.rCoeffs ++ st.pCoeffs := by
        rcases List.mem_append.mp hmem with hm | hm
        · exact List.mem_append.mpr (Or.inl (List.of_mem_zip hm).2)
        · exact List.mem_append.mpr (Or.inr (List.of_mem_zip hm).2)
      rw [hcoeffs] at hb
      obtain ⟨n, hn, hbn⟩ := List.mem_map.mp hb
      exact ⟨n, hn, hbn.symm, by simp [← hbn, Frac.ofNat], by simp [← hbn, Frac.ofNat]⟩
    · cases hmem

/-- C7 counterexample: the claim reserves the electron short-circuit
for the three exact inputs `e`, `e-`, `e^-` and says every other input
goes through charge-suffix extraction followed by atom parsing; but
`2e` — none of the three, and carrying no trailing charge pattern at
all — also short-circuits to the pure charge record, because the code
strips leading digits before the electron test. -/
theorem claim_C7_counterexample :
    Parser.parseFormula "2e" = .ok [("_Q", -1)] ∧
    ¬("2e" = "e" ∨ "2e" = "e-" ∨ "2e" = "e^-") ∧
    Parser.extractCharge ("2e").data = (0, ['2', 'e']) := by decide

/-- C7 amended: the electron short-circuit applies to the normalized,
leading-digit-stripped token (so `2e` also yields the charge record),
and in particular to `e`, `e-`, `e^-`; otherwise a trailing
caret-charge suffix `^N+`/`^N-` (magnitude defaulting to 1 when the
digits are absent) is extracted first, and only when no caret suffix
is present a trailing bare `+`/`-` with magnitude 1; the signed
magnitude is recorded under the reserved charge key and the remaining
text is atom-parsed, as witnessed by `Fe^3+` and `OH-`. -/
theorem claim_C7 :
    (Parser.parseFormula "e" = .ok [("_Q", -1)] ∧
     Parser.parseFormula "e-" = .ok [("_Q", -1)] ∧
     Parser.parseFormula "e^-" = .ok [("_Q", -1)] ∧
     Parser.parseFormula "2e" = .ok [("_Q", -1)]) ∧
    (∀ (pre digs : List Char) (sign : Char),
      (∀ d ∈ digs, isDigit d = true) → (sign = '+' ∨ sign = '-') →
      Parser.extractCharge (pre ++ '^' :: digs ++ [sign]) =
        (if sign = '+' then ((if digs.isEmpty then 1 else natOfDigits digs : Nat) : Int)
         else -((if digs.isEmpty then 1 else natOfDigits digs : Nat) : Int), pre)) ∧
    (∀ (pre : List Char) (sign : Char),
      (sign = '+' ∨ sign = '-') →
      ((pre.reverse.dropWhile isDigit).headD ' ' ≠ '^') →
      Parser.extractCharge (pre ++ [sign]) =
        (if sign = '+' then (1 : Int) else -1, pre)) ∧
    (Parser.parseFormula "Fe^3+" = .ok [("_Q", 3), ("Fe", 1)] ∧
     Parser.parseFormula "OH-" = .ok [("_Q", -1), ("O", 1), ("H", 1)]) :=
  ⟨by decide, Parser.extractCharge_caret, Parser.extractCharge_bare, by decide⟩

/-- Witness for C7 at concrete charge suffixes: `SO4^2-` loses the
caret suffix with charge `-2`, and `NH4+` (no caret) loses the bare
sign with charge `+1`. -/
theorem claim_C7_witness :
    Parser.extractCharge (['S', 'O', '4'] ++ '^' :: ['2'] ++ ['-']) =
      (if '-' = '+' then ((if (['2'] : List Char).isEmpty then 1
          else natOfDigits ['2'] : Nat) : Int)
       else -((if (['2'] : List Char).isEmpty then 1
          else natOfDigits ['2'] : Nat) : Int), ['S', 'O', '4']) ∧
    Parser.extractCharge (['N', 'H', '4'] ++ ['+']) =
      (if '+' = '+' then (1 : Int) else -1, ['N', 'H', '4']) :=
  ⟨claim_C7.2.1 ['S', 'O', '4'] ['2'] '-' (by decide) (by decide),
   claim_C7.2.2.1 ['N', 'H', '4'] '+' (by decide) (by decide)⟩

/-- C8 amended: every value an accepted parse stores under a key other
than the reserved charge pseudo-symbol is a non-negative integer. -/
theorem claim_C8_amended (formula : String) (m : Obj Int)
    (hok : Parser.parseFormula formula = .ok m) :
    ∀ p ∈ m, p.1 ≠ "_Q" → 0 ≤ p.2 := by
  obtain ⟨pf, hws, hel⟩ := except_map_ok hok
  subst hel
  exact Parser.parseFormulaWithState_Q formula pf hws

/-- Witness for the amended C8 at `H2O`. -/
theorem claim_C8_amended_witness :
    Parser.parseFormula "H2O" = .ok [("H", 2), ("O", 1)] ∧
    (∀ p ∈ ([("H", 2), ("O", 1)] : Obj Int), p.1 ≠ "_Q" → 0 ≤ p.2) :=
  ⟨by decide, claim_C8_amended "H2O" _ (by decide)⟩

/-- Witness for the amended C3 at `H2 + O2 -> H2O`: the hint-free
solution vector is `2, 1, 2` with gcd 1. -/
theorem claim_C3_amended_witness :
    ∃ st, balancePipeline "H2 + O2 -> H2O" = .ok st ∧ st.userCoefficients = [] ∧
      ∃ w : List Nat,
        MathSolver.solve st.rCounts st.pCounts = .ok w ∧
        st.rCoeffs ++ st.pCoeffs = w.map Frac.ofNat ∧
        ((¬ ∀ x ∈ w, x = 0) → List.foldl Nat.gcd 0 w = 1) ∧
        (∀ p ∈ (mkResult st).coefficients, ∃ n ∈ w,
          p.2 = Frac.ofNat n ∧ 0 ≤ p.2.num ∧ p.2.den = 1) := by
  cases hok : balancePipeline "H2 + O2 -> H2O" with
  | error m =>
    have h0 : (balancePipeline "H2 + O2 -> H2O").toOption = none := by
      rw [hok]; rfl
    exact absurd h0 (by decide)
  | ok st =>
    have hnh : st.userCoefficients = [] := by
      have h1 : (balancePipeline "H2 + O2 -> H2O").toOption.map
          (fun s => s.userCoefficients) = some [] := by decide
      rw [hok] at h1
      simp only [Except.toOption, Option.map_some'] at h1
      exact Option.some.inj h1
    exact ⟨st, rfl, hnh, claim_C3_amended "H2 + O2 -> H2O" st hok hnh⟩

end ChemBal
